import Mathlib

/-!
Verification of the `autocorrect` writing-assistant program.

The Python sources are shallowly embedded:
* `config_manager.py` — YAML values become the inductive type `Val`;
  `_merge_with_defaults` and `_validate` become `mergeWithDefaults` and
  `validateConfig` over association lists.
* `gemini_client.py` — `_check_rate_limit` becomes `check_rate_limit` over a
  list of rational timestamps; the retry loop of `improve_text` becomes
  `attemptLoop` driven by a provider oracle; serialized call traces become
  `runTrace`.
* `text_handler.py` — clipboard state is an `Option String`;
  `get_selected_text` and `replace_selected_text` become pure state
  transformers.
* `main.py` — `handle_hotkey` becomes a function from the lock state and an
  environment oracle to the observable effects of one invocation.
-/

/-! ## Configuration values (`config_manager.py`) -/

/-- A YAML value as manipulated by `ConfigManager`: scalars or nested
string-keyed mappings. -/
inductive Val where
  | str : String → Val
  | int : Int → Val
  | bool : Bool → Val
  | dict : List (String × Val) → Val

/-- Python `d[key]` lookup on a dict modelled as an association list. -/
def dictGet (d : List (String × Val)) (k : String) : Option Val :=
  (d.find? (fun p => p.1 = k)).map (·.2)

/-- Python `d[key] = v`: replace the value at the key in place (a Python dict
holds each key once), or append the binding at the end when the key is new. -/
def dictSet : List (String × Val) → String → Val → List (String × Val)
  | [], k, v => [(k, v)]
  | (k₁, v₁) :: d, k, v =>
    if k₁ = k then (k, v) :: d else (k₁, v₁) :: dictSet d k v

mutual

/-- `ConfigManager._merge_with_defaults`: start from a copy of the defaults
and for each user entry either recursively merge (when both the present value
and the user value are dicts) or overwrite. -/
def mergeWithDefaults : List (String × Val) → List (String × Val) → List (String × Val)
  | [], result => result
  | (k, v) :: rest, result =>
    mergeWithDefaults rest (dictSet result k (mergeEntry (dictGet result k) v))

/-- Body of the merge loop for one user entry `v` at some key: the first
argument is `result[key]` when the key is present.  Both sides dicts →
recursive merge; anything else → the user's value. -/
def mergeEntry : Option Val → Val → Val
  | some (Val.dict dv), Val.dict cv => Val.dict (mergeWithDefaults cv dv)
  | _, v => v

end

/-- `ConfigManager.DEFAULT_CONFIG`. -/
def DEFAULT_CONFIG : List (String × Val) :=
  [ ("gemini", Val.dict
      [ ("api_key", Val.str ""),
        ("model", Val.str "gemini-2.0-flash-exp"),
        ("max_retries", Val.int 3),
        ("timeout", Val.int 10) ]),
    ("hotkeys", Val.dict
      [ ("grammar_fix", Val.str "cmd+shift+g"),
        ("formal", Val.str "cmd+shift+f"),
        ("casual", Val.str "cmd+shift+c"),
        ("simplify", Val.str "cmd+shift+s"),
        ("expand", Val.str "cmd+shift+e") ]),
    ("rate_limit", Val.dict
      [ ("requests_per_minute", Val.int 50) ]),
    ("ui", Val.dict
      [ ("show_notifications", Val.bool true),
        ("notification_duration", Val.int 2) ]),
    ("logging", Val.dict
      [ ("level", Val.str "INFO"),
        ("file", Val.str "writing_assistant.log") ]) ]

/-- The placeholder credential rejected by `ConfigManager._validate`. -/
def PLACEHOLDER_KEY : String := "YOUR_GEMINI_API_KEY_HERE"

/-- `ConfigManager._validate` applied to a merged configuration whose
`gemini.api_key` is the string `apiKey` and whose
`rate_limit.requests_per_minute` is the integer `rpm`: `true` means a
`ValueError` is raised. -/
def validateConfig (apiKey : String) (rpm : Int) : Bool :=
  if apiKey = "" ∨ apiKey = PLACEHOLDER_KEY then
    true
  else if rpm ≤ 0 ∨ rpm > 60 then
    true
  else
    false

/-- Build the user document of the worked example and of validation calls:
a config whose `gemini.api_key` is `apiKey` and whose
`rate_limit.requests_per_minute` is `rpm`. -/
def mkUserConfig (apiKey : String) (rpm : Int) : List (String × Val) :=
  [ ("gemini", Val.dict [("api_key", Val.str apiKey)]),
    ("rate_limit", Val.dict [("requests_per_minute", Val.int rpm)]) ]

/-- `self.config.get('gemini', {}).get('api_key', '')`. -/
def configApiKey (cfg : List (String × Val)) : String :=
  match dictGet cfg "gemini" with
  | some (Val.dict g) =>
    match dictGet g "api_key" with
    | some (Val.str s) => s
    | _ => ""
  | _ => ""

/-- `self.config.get('rate_limit', {}).get('requests_per_minute', 0)`. -/
def configRpm (cfg : List (String × Val)) : Int :=
  match dictGet cfg "rate_limit" with
  | some (Val.dict r) =>
    match dictGet r "requests_per_minute" with
    | some (Val.int n) => n
    | _ => 0
  | _ => 0

/-- `ConfigManager._validate` on a merged configuration dict: `true` means a
`ValueError` is raised. -/
def validate (cfg : List (String × Val)) : Bool :=
  validateConfig (configApiKey cfg) (configRpm cfg)

/-! ## Rate limiting (`gemini_client.py`, `GeminiClient._check_rate_limit`)

Wall-clock instants are rationals (seconds).  The `request_times` deque with
`maxlen = requests_per_minute` is a list of timestamps, oldest first.  The
model is the idealized one in which the body of `_check_rate_limit` runs
instantaneously except for the explicit `time.sleep`. -/

/-- The `while` loop of `_check_rate_limit`: pop timestamps from the front
while they are more than 60 seconds older than `now`. -/
def dropOld (now : ℚ) : List ℚ → List ℚ
  | [] => []
  | t :: ts => if now - t > 60 then dropOld now ts else t :: ts

/-- `deque.append` on a deque with `maxlen = m`: when the deque is full the
leftmost element is discarded. -/
def appendMax (m : ℕ) (ts : List ℚ) (x : ℚ) : List ℚ :=
  if ts.length ≥ m then (ts ++ [x]).tail else ts ++ [x]

/-- `GeminiClient._check_rate_limit`, entered at wall-clock time `now` with
timestamp record `ts`.  Returns the slept duration and the updated record;
the timestamp appended at the end is `time.time()` after the sleep, i.e.
`now` plus the slept duration. -/
def check_rate_limit (rpm : ℕ) (now : ℚ) (ts : List ℚ) : ℚ × List ℚ :=
  let pruned := dropOld now ts
  if pruned.length ≥ rpm then
    let wait := 60 - (now - pruned.headD 0)
    let w := if 0 < wait then wait else 0
    (w, appendMax rpm pruned (now + w))
  else
    (0, appendMax rpm pruned now)

/-- A serialized trace of `_check_rate_limit` calls.  `t` is the instant the
previous call finished (the trace starts at `t`); each entry `g` of `gaps` is
the nonnegative delay until the next call arrives, so the call is entered at
`now = t + g` and its request is issued at `now` plus the slept duration.
Returns the issue instants, in order. -/
def runTrace (rpm : ℕ) (t : ℚ) (ts : List ℚ) : List ℚ → List ℚ
  | [] => []
  | g :: gaps =>
    let now := t + g
    let r := check_rate_limit rpm now ts
    (now + r.1) :: runTrace rpm (now + r.1) r.2 gaps

/-! ## Retry loop (`gemini_client.py`, `GeminiClient.improve_text`) -/

/-- Outcome of one `model.generate_content` call: either it raises, or it
returns a response whose `.text` is the given string (the empty string models
a falsy `response.text`). -/
inductive PResult where
  | raise : PResult
  | resp : String → PResult
deriving DecidableEq

/-- Python's `str.strip()`: drop whitespace from both ends.  (Lean's own
`String.trim` is definitionally opaque, so the model works on the character
list.) -/
def pyStrip (s : String) : String :=
  ((s.toList.dropWhile Char.isWhitespace).reverse.dropWhile Char.isWhitespace).reverse.asString

/-- The `for attempt in range(self.max_retries)` loop of `improve_text`,
with `remaining` iterations left (so the current attempt index is
`maxRetries - remaining`).  `provider attempt` is the outcome of the
`generate_content` call on that attempt.  Returns the result, the number of
attempts made, and the total number of seconds spent in `time.sleep` by the
exponential-backoff branch.  A successful response is stripped; an empty
response falls through to the next iteration with no sleep, while a raised
error sleeps `2 ^ attempt` seconds when further attempts remain. -/
def attemptLoop (maxRetries : ℕ) (provider : ℕ → PResult) : ℕ → Option String × ℕ × ℕ
  | 0 => (none, 0, 0)
  | r + 1 =>
    let attempt := maxRetries - (r + 1)
    match provider attempt with
    | PResult.resp t =>
      if t ≠ "" then
        (some (pyStrip t), 1, 0)
      else
        let rest := attemptLoop maxRetries provider r
        (rest.1, rest.2.1 + 1, rest.2.2)
    | PResult.raise =>
      let sleep := if attempt < maxRetries - 1 then 2 ^ attempt else 0
      let rest := attemptLoop maxRetries provider r
      (rest.1, rest.2.1 + 1, rest.2.2 + sleep)

/-- `GeminiClient.PROMPTS`: the five mode keys and their templates. -/
def PROMPTS : List (String × String) :=
  [ ("grammar_fix", "Fix any grammar, spelling, and punctuation errors in the following text.\nMaintain the original tone and style. Only return the corrected text, nothing else.\n\nText: {text}"),
    ("formal", "Rewrite the following text in a more formal and professional style.\nMaintain the core message. Only return the rewritten text, nothing else.\n\nText: {text}"),
    ("casual", "Rewrite the following text in a more casual and friendly style.\nMaintain the core message. Only return the rewritten text, nothing else.\n\nText: {text}"),
    ("simplify", "Simplify the following text to make it clearer and easier to understand.\nUse simpler words and shorter sentences. Only return the simplified text, nothing else.\n\nText: {text}"),
    ("expand", "Expand and elaborate on the following text with more detail and context.\nMaintain the original style. Only return the expanded text, nothing else.\n\nText: {text}") ]

/-- The `if not text or not text.strip():` guard of `improve_text`. -/
def isBlankInput (text : String) : Bool :=
  text = "" || pyStrip text = ""

/-- Aggregated observable outcome of one `improve_text` call. -/
structure ImproveOutcome where
  result : Option String
  times : List ℚ
  attempts : ℕ
  retrySleep : ℕ
deriving Repr

/-- `GeminiClient.improve_text`, entered at wall-clock time `now` with
timestamp record `times`.  `provider` is the oracle for the network calls.
Blank text or an unknown mode returns `None` before the rate limiter or the
network is touched; otherwise the rate limit is enforced and the retry loop
runs. -/
def improve_text (rpm maxRetries : ℕ) (provider : ℕ → PResult) (now : ℚ)
    (times : List ℚ) (text mode : String) : ImproveOutcome :=
  if isBlankInput text then
    ⟨none, times, 0, 0⟩
  else if (PROMPTS.lookup mode).isNone then
    ⟨none, times, 0, 0⟩
  else
    let r := check_rate_limit rpm now times
    let a := attemptLoop maxRetries provider maxRetries
    ⟨a.1, r.2, a.2.1, a.2.2⟩

/-! ## Clipboard operations (`text_handler.py`)

The general pasteboard's string content is an `Option String`: `none` models
`stringForType_` returning `None`. -/

/-- `TextHandler.get_selected_text`: save the clipboard, fire Cmd+C (after
which the clipboard holds `afterCopy`), restore the saved content when it is
truthy, and return the captured text only when it is non-blank.  Returns the
result together with the final clipboard state. -/
def get_selected_text (clipboard afterCopy : Option String) :
    Option String × Option String :=
  let restored :=
    match clipboard with
    | some s => if s ≠ "" then some s else afterCopy
    | none => afterCopy
  match afterCopy with
  | some s => if pyStrip s ≠ "" then (some s, restored) else (none, restored)
  | none => (none, restored)

/-- `TextHandler.replace_selected_text`: reject empty text, otherwise put
`newText` on the clipboard, fire Cmd+V (`pasteOk` records whether the
AppleScript succeeded; its result is discarded), and restore the saved
clipboard content when it is truthy.  Returns the success flag and the final
clipboard state. -/
def replace_selected_text (newText : String) (pasteOk : Bool)
    (clipboard : Option String) : Bool × Option String :=
  if newText = "" then
    (false, clipboard)
  else
    let oldClipboard := clipboard
    let afterSet : Option String := some newText
    let _ := pasteOk
    let restored :=
      match oldClipboard with
      | some s => if s ≠ "" then some s else afterSet
      | none => afterSet
    (true, restored)

/-! ## Hotkey handling (`main.py`, `WritingAssistant.handle_hotkey`)

One invocation of the callback is a function of the current lock state and an
oracle for the outcomes of the steps inside the `try` block.  `Except Unit α`
models a call that either returns an `α` or raises an unexpected exception;
every such exception is caught by the `except` clause, and the `finally`
clause releases the lock on every path out of the `try`. -/

/-- Outcomes of the steps performed inside the `try` block of one
`handle_hotkey` invocation. -/
structure HotkeyEnv where
  selected : Except Unit (Option String)
  improved : Except Unit (Option String)
  replaced : Except Unit Bool

/-- Observable effects of one `handle_hotkey` invocation. -/
structure HotkeyResult where
  lockAfter : Bool
  dropped : Bool
  captures : ℕ
  apiCalls : ℕ
  replaces : ℕ
deriving DecidableEq, Repr

/-- `WritingAssistant.handle_hotkey`: a non-blocking acquire that fails drops
the trigger with nothing executed; otherwise the body runs under the lock and
the `finally` clause releases it on the early `return`, on normal completion,
and after the `except` clause has swallowed an unexpected exception. -/
def handle_hotkey (lockHeld : Bool) (env : HotkeyEnv) : HotkeyResult :=
  if lockHeld then
    ⟨true, true, 0, 0, 0⟩
  else
    match env.selected with
    | Except.error _ => ⟨false, false, 1, 0, 0⟩
    | Except.ok none => ⟨false, false, 1, 0, 0⟩
    | Except.ok (some _) =>
      match env.improved with
      | Except.error _ => ⟨false, false, 1, 1, 0⟩
      | Except.ok none => ⟨false, false, 1, 1, 0⟩
      | Except.ok (some _) =>
        match env.replaced with
        | Except.error _ => ⟨false, false, 1, 1, 1⟩
        | Except.ok _ => ⟨false, false, 1, 1, 1⟩

/-! ## Theorems -/

/-- Number of issue instants lying in the trailing 60-second window
`(x, x + 60]`. -/
def windowCount (l : List ℚ) (x : ℚ) : ℕ :=
  l.countP (fun y => decide (x < y ∧ y ≤ x + 60))

theorem windowCount_nil (x : ℚ) : windowCount [] x = 0 := rfl

theorem windowCount_append (l₁ l₂ : List ℚ) (x : ℚ) :
    windowCount (l₁ ++ l₂) x = windowCount l₁ x + windowCount l₂ x := by
  simp [windowCount, List.countP_append]

theorem windowCount_cons (y : ℚ) (l : List ℚ) (x : ℚ) :
    windowCount (y :: l) x =
      windowCount l x + (if x < y ∧ y ≤ x + 60 then 1 else 0) := by
  by_cases h : x < y ∧ y ≤ x + 60 <;> simp [windowCount, List.countP_cons, h]

theorem windowCount_le_length (l : List ℚ) (x : ℚ) : windowCount l x ≤ l.length :=
  List.countP_le_length _

theorem windowCount_zero_of_le (l : List ℚ) (x : ℚ) (h : ∀ y ∈ l, y ≤ x) :
    windowCount l x = 0 := by
  rw [windowCount, List.countP_eq_zero]
  intro y hy
  simp only [decide_eq_true_eq, not_and]
  intro hx
  exact absurd (h y hy) (not_le.mpr hx)

theorem dropOld_decomp (now : ℚ) (ts : List ℚ) :
    ∃ removed, ts = removed ++ dropOld now ts ∧ ∀ y ∈ removed, now - y > 60 := by
  induction ts with
  | nil => exact ⟨[], rfl, by simp⟩
  | cons t ts ih =>
    by_cases h : now - t > 60
    · obtain ⟨removed, he, hr⟩ := ih
      refine ⟨t :: removed, ?_, ?_⟩
      · simp only [dropOld, if_pos h, List.cons_append]
        exact congrArg (t :: ·) he
      · intro y hy
        rcases List.mem_cons.mp hy with hy | hy
        · exact hy ▸ h
        · exact hr y hy
    · exact ⟨[], by rw [dropOld, if_neg h]; rfl, by simp⟩

theorem dropOld_length (now : ℚ) (ts : List ℚ) :
    (dropOld now ts).length ≤ ts.length := by
  induction ts with
  | nil => simp [dropOld]
  | cons t ts ih =>
    by_cases h : now - t > 60
    · rw [dropOld, if_pos h]
      exact le_trans ih (by simp)
    · rw [dropOld, if_neg h]

/-- Adding a freshly issued instant `τ` to the record keeps every trailing
window at or below the quota, provided every element outside `keep` is at
least 60 seconds older than `τ` and `keep` has fewer than `rpm` elements. -/
theorem windowCount_append_new (rpm : ℕ) (excl keep : List ℚ) (τ x : ℚ)
    (hexcl : ∀ y ∈ excl, y + 60 ≤ τ)
    (hkeep : keep.length ≤ rpm - 1)
    (hrpm : 1 ≤ rpm)
    (hbase : windowCount (excl ++ keep) x ≤ rpm) :
    windowCount ((excl ++ keep) ++ [τ]) x ≤ rpm := by
  rw [windowCount_append]
  by_cases hτ : x < τ ∧ τ ≤ x + 60
  · have h1 : windowCount excl x = 0 :=
      windowCount_zero_of_le _ _ (fun y hy => by
        have := hexcl y hy
        linarith [hτ.2])
    have h2 : windowCount keep x ≤ rpm - 1 :=
      le_trans (windowCount_le_length _ _) hkeep
    have h3 : windowCount [τ] x ≤ 1 := windowCount_le_length _ _
    rw [windowCount_append, h1]
    omega
  · have h0 : windowCount [τ] x = 0 := by
      rw [show [τ] = τ :: ([] : List ℚ) from rfl, windowCount_cons, if_neg hτ,
        windowCount_nil]
    omega

theorem pyStrip_empty : pyStrip "" = "" := rfl

/-- Trace invariant for the rate limiter: `dropped` are the issue instants no
longer in the record (each at least 60 seconds older than the reference time
`t`), `ts` is the current record (at most `rpm` instants, none later than
`t`), and every trailing window over the issues so far holds at most `rpm`
instants.  Then every trailing window over the whole extended trace also
holds at most `rpm` instants. -/
theorem runTrace_window (rpm : ℕ) (hrpm : 1 ≤ rpm) :
    ∀ (gaps : List ℚ) (t : ℚ) (dropped ts : List ℚ),
      (∀ g ∈ gaps, 0 ≤ g) →
      (∀ y ∈ dropped, y + 60 ≤ t) →
      (∀ y ∈ ts, y ≤ t) →
      ts.length ≤ rpm →
      (∀ x : ℚ, windowCount (dropped ++ ts) x ≤ rpm) →
      ∀ x : ℚ, windowCount ((dropped ++ ts) ++ runTrace rpm t ts gaps) x ≤ rpm := by
  intro gaps
  induction gaps with
  | nil =>
    intro t dropped ts _ _ _ _ hwin x
    simpa [runTrace] using hwin x
  | cons g gaps ih =>
    intro t dropped ts hg hdrop hts hlen hwin x
    have hg0 : 0 ≤ g := hg g (List.mem_cons_self g gaps)
    have hg' : ∀ g' ∈ gaps, 0 ≤ g' := fun g' hg' => hg g' (List.mem_cons_of_mem _ hg')
    have hnow : t ≤ t + g := by linarith
    obtain ⟨removed, hts_eq, hrem⟩ := dropOld_decomp (t + g) ts
    have hplen_le : (dropOld (t + g) ts).length ≤ rpm :=
      le_trans (dropOld_length (t + g) ts) hlen
    by_cases hfull : rpm ≤ (dropOld (t + g) ts).length
    · -- the record is full after pruning: wait, then append at the issue time
      have hplen : (dropOld (t + g) ts).length = rpm := le_antisymm hplen_le hfull
      obtain ⟨h₀, ptail, hpe⟩ : ∃ a l, dropOld (t + g) ts = a :: l := by
        cases hp : dropOld (t + g) ts with
        | nil => rw [hp] at hplen; simp at hplen; omega
        | cons a l => exact ⟨a, l, rfl⟩
      obtain ⟨w, hwdef⟩ :
          ∃ w : ℚ, w = if 0 < 60 - (t + g - h₀) then 60 - (t + g - h₀) else 0 :=
        ⟨_, rfl⟩
      have hw0 : 0 ≤ w := by
        rw [hwdef]
        split_ifs with h' <;> linarith
      have hτ₀ : h₀ + 60 ≤ t + g + w := by
        rw [hwdef]
        split_ifs with h' <;> linarith
      have hτnow : t + g ≤ t + g + w := by linarith
      have hcrl : check_rate_limit rpm (t + g) ts = (w, ptail ++ [t + g + w]) := by
        simp only [check_rate_limit, hpe]
        rw [if_pos (by rw [← hpe, hplen])]
        simp only [List.headD_cons, appendMax, ← hwdef]
        rw [if_pos (by rw [← hpe, hplen]), List.cons_append, List.tail_cons]
      have hrt : runTrace rpm t ts (g :: gaps) =
          (t + g + w) :: runTrace rpm (t + g + w) (ptail ++ [t + g + w]) gaps := by
        rw [runTrace, hcrl]
      have hdrop' : ∀ y ∈ (dropped ++ removed) ++ [h₀], y + 60 ≤ t + g + w := by
        intro y hy
        rcases List.mem_append.mp hy with hy | hy
        · rcases List.mem_append.mp hy with hy | hy
          · have := hdrop y hy
            linarith
          · have := hrem y hy
            linarith
        · rw [List.mem_singleton.mp hy]
          exact hτ₀
      have hmemts : ∀ y ∈ ptail, y ∈ ts := by
        intro y hy
        rw [hts_eq, hpe]
        exact List.mem_append_right _ (List.mem_cons_of_mem _ hy)
      have hts' : ∀ y ∈ ptail ++ [t + g + w], y ≤ t + g + w := by
        intro y hy
        rcases List.mem_append.mp hy with hy | hy
        · have := hts y (hmemts y hy)
          linarith
        · rw [List.mem_singleton.mp hy]
      have hlen' : (ptail ++ [t + g + w]).length ≤ rpm := by
        have : (dropOld (t + g) ts).length = ptail.length + 1 := by rw [hpe]; simp
        simp only [List.length_append, List.length_singleton]
        omega
      have hkeep : ptail.length ≤ rpm - 1 := by
        have : (dropOld (t + g) ts).length = ptail.length + 1 := by rw [hpe]; simp
        omega
      have hwin' : ∀ x' : ℚ,
          windowCount (((dropped ++ removed) ++ [h₀]) ++ (ptail ++ [t + g + w])) x' ≤ rpm := by
        intro x'
        have hlist : ((dropped ++ removed) ++ [h₀]) ++ (ptail ++ [t + g + w]) =
            ((((dropped ++ removed) ++ [h₀]) ++ ptail) ++ [t + g + w]) := by
          simp
        have hbase : windowCount (((dropped ++ removed) ++ [h₀]) ++ ptail) x' ≤ rpm := by
          have he : ((dropped ++ removed) ++ [h₀]) ++ ptail = dropped ++ ts := by
            rw [hts_eq, hpe]
            simp
          rw [he]
          exact hwin x'
        rw [hlist]
        exact windowCount_append_new rpm ((dropped ++ removed) ++ [h₀]) ptail
          (t + g + w) x' hdrop' hkeep hrpm hbase
      have ihh := ih (t + g + w) ((dropped ++ removed) ++ [h₀]) (ptail ++ [t + g + w])
        hg' hdrop' hts' hlen' hwin'
      have hfin : (dropped ++ ts) ++ runTrace rpm t ts (g :: gaps) =
          (((dropped ++ removed) ++ [h₀]) ++ (ptail ++ [t + g + w])) ++
            runTrace rpm (t + g + w) (ptail ++ [t + g + w]) gaps := by
        rw [hrt, hts_eq, hpe]
        simp
      rw [hfin]
      exact ihh x
    · -- the record is below the quota after pruning: no wait
      have hlt : (dropOld (t + g) ts).length < rpm := lt_of_not_le hfull
      obtain ⟨pruned, hpe⟩ : ∃ p, dropOld (t + g) ts = p := ⟨_, rfl⟩
      rw [hpe] at hts_eq hfull hlt
      have hcrl : check_rate_limit rpm (t + g) ts = (0, pruned ++ [t + g]) := by
        simp only [check_rate_limit, hpe]
        rw [if_neg hfull]
        simp only [appendMax]
        rw [if_neg (not_le.mpr hlt)]
      have hrt : runTrace rpm t ts (g :: gaps) =
          (t + g + 0) :: runTrace rpm (t + g + 0) (pruned ++ [t + g]) gaps := by
        rw [runTrace, hcrl]
      rw [add_zero] at hrt
      have hdrop' : ∀ y ∈ dropped ++ removed, y + 60 ≤ t + g := by
        intro y hy
        rcases List.mem_append.mp hy with hy | hy
        · have := hdrop y hy
          linarith
        · have := hrem y hy
          linarith
      have hmemts : ∀ y ∈ pruned, y ∈ ts := by
        intro y hy
        rw [hts_eq]
        exact List.mem_append_right _ hy
      have hts' : ∀ y ∈ pruned ++ [t + g], y ≤ t + g := by
        intro y hy
        rcases List.mem_append.mp hy with hy | hy
        · have := hts y (hmemts y hy)
          linarith
        · rw [List.mem_singleton.mp hy]
      have hlen' : (pruned ++ [t + g]).length ≤ rpm := by
        simp only [List.length_append, List.length_singleton]
        omega
      have hkeep : pruned.length ≤ rpm - 1 := by omega
      have hwin' : ∀ x' : ℚ,
          windowCount ((dropped ++ removed) ++ (pruned ++ [t + g])) x' ≤ rpm := by
        intro x'
        have hlist : (dropped ++ removed) ++ (pruned ++ [t + g]) =
            (((dropped ++ removed) ++ pruned) ++ [t + g]) := by
          simp
        have hbase : windowCount ((dropped ++ removed) ++ pruned) x' ≤ rpm := by
          have he : (dropped ++ removed) ++ pruned = dropped ++ ts := by
            rw [hts_eq]
            simp
          rw [he]
          exact hwin x'
        rw [hlist]
        exact windowCount_append_new rpm (dropped ++ removed) pruned
          (t + g) x' hdrop' hkeep hrpm hbase
      have ihh := ih (t + g) (dropped ++ removed) (pruned ++ [t + g])
        hg' hdrop' hts' hlen' hwin'
      have hfin : (dropped ++ ts) ++ runTrace rpm t ts (g :: gaps) =
          ((dropped ++ removed) ++ (pruned ++ [t + g])) ++
            runTrace rpm (t + g) (pruned ++ [t + g]) gaps := by
        rw [hrt, hts_eq]
        simp
      rw [hfin]
      exact ihh x

/-- C1: when the timestamp record still holds `requests_per_minute` entries
after discarding entries older than 60 seconds from the front, and
`60 - (now - oldest)` is positive, the call blocks for exactly that long and
appends the new request's timestamp (`now` plus the wait) after the wait;
consequently, over any serialized trace of calls, no more than
`requests_per_minute` requests are issued in any trailing 60-second window. -/
theorem rate_limiter_spec (rpm : ℕ) (hrpm : 1 ≤ rpm) (now : ℚ) (ts : List ℚ)
    (hfull : (dropOld now ts).length = rpm)
    (hpos : 0 < 60 - (now - (dropOld now ts).headD 0)) :
    check_rate_limit rpm now ts =
      (60 - (now - (dropOld now ts).headD 0),
        appendMax rpm (dropOld now ts)
          (now + (60 - (now - (dropOld now ts).headD 0)))) ∧
    ∀ gaps : List ℚ, (∀ g ∈ gaps, 0 ≤ g) →
      ∀ x : ℚ, windowCount (runTrace rpm 0 [] gaps) x ≤ rpm := by
  constructor
  · simp only [check_rate_limit]
    rw [if_pos (le_of_eq hfull.symm), if_pos hpos]
  · intro gaps hg x
    have h := runTrace_window rpm hrpm gaps 0 [] [] hg (by simp) (by simp)
      (by simp) (fun x' => by simp [windowCount_nil]) x
    simpa using h

/-- C1 witness: with quota 1, a record holding one 10-second-old timestamp
makes the next call wait 50 seconds and record the instant 60; and a
three-call burst trace never exceeds one issue per trailing window. -/
theorem rate_limiter_spec_witness :
    check_rate_limit 1 10 [0] = (50, [60]) ∧
    windowCount (runTrace 1 0 [] [0, 0]) 0 ≤ 1 := by
  have hd : dropOld 10 [0] = [0] := by
    simp only [dropOld]
    rw [if_neg (by norm_num)]
  have h := rate_limiter_spec 1 le_rfl 10 [0] (by rw [hd]; rfl) (by rw [hd]; norm_num)
  refine ⟨h.1.trans ?_, h.2 [0, 0] ?_ 0⟩
  · rw [hd]
    simp only [List.headD_cons, appendMax, List.length_singleton, List.singleton_append,
      List.tail_cons]
    norm_num
  · intro g hg
    simp only [List.mem_cons, List.not_mem_nil, or_false] at hg
    rcases hg with h' | h' <;> simp [h']

/-- C2: if the processing lock is already held, the trigger is dropped with no
capture, API call, or replacement and the lock state is untouched; otherwise
the trigger is not dropped, at most one rewrite (API call) happens during the
invocation, and the lock is free again when the invocation finishes, on every
exit path of the body — the no-selection early return, the failure branches,
and unexpected exceptions alike. -/
theorem handle_hotkey_lock_discipline (env : HotkeyEnv) :
    handle_hotkey true env = ⟨true, true, 0, 0, 0⟩ ∧
    (handle_hotkey false env).lockAfter = false ∧
    (handle_hotkey false env).dropped = false ∧
    (handle_hotkey false env).apiCalls ≤ 1 := by
  obtain ⟨sel, imp, rep⟩ := env
  refine ⟨rfl, ?_⟩
  rcases sel with _ | _ | s
  · exact ⟨rfl, rfl, by norm_num [handle_hotkey]⟩
  · exact ⟨rfl, rfl, by norm_num [handle_hotkey]⟩
  · rcases imp with _ | _ | i
    · exact ⟨rfl, rfl, by norm_num [handle_hotkey]⟩
    · exact ⟨rfl, rfl, by norm_num [handle_hotkey]⟩
    · rcases rep with _ | r
      · exact ⟨rfl, rfl, by norm_num [handle_hotkey]⟩
      · exact ⟨rfl, rfl, by norm_num [handle_hotkey]⟩

/-- C6: blank text (empty or whitespace-only) or a mode outside the five
known ones makes `improve_text` return `None` at once: no attempt is made
(zero network calls) and the rate-limit timestamp record is returned
unchanged. -/
theorem improve_text_rejects_blank_and_unknown (rpm maxRetries : ℕ)
    (provider : ℕ → PResult) (now : ℚ) (times : List ℚ) (text mode : String)
    (h : text = "" ∨ pyStrip text = "" ∨
         mode ∉ ["grammar_fix", "formal", "casual", "simplify", "expand"]) :
    improve_text rpm maxRetries provider now times text mode = ⟨none, times, 0, 0⟩ := by
  rcases h with h | h | h
  · simp [improve_text, isBlankInput, h]
  · simp [improve_text, isBlankInput, h]
  · simp only [List.mem_cons, List.mem_singleton, not_or] at h
    obtain ⟨h1, h2, h3, h4, h5, -⟩ := h
    have hlook : (PROMPTS.lookup mode).isNone := by
      simp [PROMPTS, List.lookup, beq_eq_false_iff_ne.mpr h1, beq_eq_false_iff_ne.mpr h2,
        beq_eq_false_iff_ne.mpr h3, beq_eq_false_iff_ne.mpr h4, beq_eq_false_iff_ne.mpr h5]
    by_cases hb : isBlankInput text <;> simp [improve_text, hb, hlook]

/-- C6 witness: whitespace-only text is rejected at a concrete input. -/
theorem improve_text_rejects_blank_and_unknown_witness :
    improve_text 1 3 (fun _ => PResult.raise) 0 [] "   " "grammar_fix" = ⟨none, [], 0, 0⟩ :=
  improve_text_rejects_blank_and_unknown 1 3 (fun _ => PResult.raise) 0 [] "   " "grammar_fix"
    (Or.inr (Or.inl (by decide)))

theorem validateConfig_iff (apiKey : String) (rpm : Int) :
    validateConfig apiKey rpm = true ↔
      apiKey = "" ∨ apiKey = PLACEHOLDER_KEY ∨ rpm ≤ 0 ∨ 60 < rpm := by
  unfold validateConfig
  by_cases h1 : apiKey = "" ∨ apiKey = PLACEHOLDER_KEY
  · simp only [if_pos h1]
    tauto
  · by_cases h2 : rpm ≤ 0 ∨ rpm > 60 <;>
      simp only [if_neg h1, if_pos, if_neg, h2, if_true, if_false] <;> tauto

/-- C8: on a configuration merged with the defaults, validation raises
exactly when the api_key is empty or the placeholder, or the
requests-per-minute quota lies outside `(0, 60]`; in particular 0, 61 and
all negative values are rejected and 1 through 60 are accepted. -/
theorem validate_merged_iff (apiKey : String) (rpm : Int) :
    validate (mergeWithDefaults (mkUserConfig apiKey rpm) DEFAULT_CONFIG) = true ↔
      apiKey = "" ∨ apiKey = PLACEHOLDER_KEY ∨ rpm ≤ 0 ∨ 60 < rpm := by
  have hext : validate (mergeWithDefaults (mkUserConfig apiKey rpm) DEFAULT_CONFIG) =
      validateConfig apiKey rpm := by
    simp [validate, configApiKey, configRpm, mergeWithDefaults, mergeEntry, mkUserConfig,
      DEFAULT_CONFIG, dictGet, dictSet, List.find?]
  rw [hext]
  exact validateConfig_iff apiKey rpm

/-- C10: the capture result is never a blank string: it is `None` or contains
a non-whitespace character, so captured text can never trigger the blank-input
rejection inside `improve_text`; in particular an empty or whitespace-only
post-copy clipboard yields `None`. -/
theorem get_selected_text_never_blank (clipboard afterCopy : Option String) :
    ((get_selected_text clipboard afterCopy).1 = none ∨
      ∃ s, (get_selected_text clipboard afterCopy).1 = some s ∧
        pyStrip s ≠ "" ∧ isBlankInput s = false) ∧
    (∀ s, afterCopy = some s → pyStrip s = "" →
      (get_selected_text clipboard afterCopy).1 = none) ∧
    (afterCopy = none → (get_selected_text clipboard afterCopy).1 = none) := by
  refine ⟨?_, ?_, ?_⟩
  · rcases afterCopy with _ | s
    · exact Or.inl rfl
    · by_cases hs : pyStrip s = ""
      · exact Or.inl (by simp [get_selected_text, hs])
      · refine Or.inr ⟨s, by simp [get_selected_text, hs], hs, ?_⟩
        have hne : s ≠ "" := by
          intro he
          exact hs (by rw [he]; exact pyStrip_empty)
        simp [isBlankInput, hne, hs]
  · intro s hs htrim
    subst hs
    simp [get_selected_text, htrim]
  · intro h
    subst h
    rfl

/-- C10 witness: a whitespace-only post-copy clipboard yields `None` at a
concrete input. -/
theorem get_selected_text_never_blank_witness :
    (get_selected_text (some "old") (some "  ")).1 = none :=
  (get_selected_text_never_blank (some "old") (some "  ")).2.1 "  " rfl (by decide)

/-- C9 counterexample: when the clipboard is empty before the call, the
content observed before the call (the empty string) is not restored — the
clipboard is left holding the pasted text. -/
theorem replace_selected_text_empty_clipboard :
    (replace_selected_text "x" true (some "")).2 = some "x" ∧
    (some "x" : Option String) ≠ some "" := by
  refine ⟨rfl, by simp⟩

/-- C9 (amended): whenever the clipboard held a non-empty string before the
call, that exact content is back on the clipboard when the call returns,
whether the paste attempt succeeded or failed and whether the call accepted
or rejected the replacement text. -/
theorem replace_selected_text_restores_nonempty (newText : String) (pasteOk : Bool)
    (s : String) (hs : s ≠ "") :
    (replace_selected_text newText pasteOk (some s)).2 = some s := by
  by_cases hn : newText = "" <;> simp [replace_selected_text, hn, hs]

/-- C9 amended witness: a concrete non-empty prior clipboard is restored after
a failed paste attempt. -/
theorem replace_selected_text_restores_nonempty_witness :
    (replace_selected_text "x" false (some "old")).2 = some "old" :=
  replace_selected_text_restores_nonempty "x" false "old" (by decide)

/-- When every provider call fails — by raising or by returning an empty
response — the loop makes one attempt per remaining iteration and produces
`none`. -/
theorem attemptLoop_all_fail (maxRetries : ℕ) (provider : ℕ → PResult)
    (hfail : ∀ a, provider a = PResult.raise ∨ provider a = PResult.resp "") :
    ∀ r, (attemptLoop maxRetries provider r).1 = none ∧
         (attemptLoop maxRetries provider r).2.1 = r := by
  intro r
  induction r with
  | zero => exact ⟨rfl, rfl⟩
  | succ r ih =>
    rcases hfail (maxRetries - (r + 1)) with h | h <;>
      simp [attemptLoop, h, ih.1, ih.2]

/-- The general shape of a run of the retry loop: the first `k` attempts fail
(raising or returning an empty response), attempt `k` succeeds with non-empty
text `t`.  The loop returns the stripped text after `k + 1` attempts, and the
total backoff sleep is `2 ^ attempt` summed over exactly the attempts that
raised — empty responses contribute nothing. -/
theorem attemptLoop_mixed (maxRetries : ℕ) (provider : ℕ → PResult) (t : String)
    (ht : t ≠ "") :
    ∀ r k, r ≤ maxRetries → k < r →
      (∀ j, j < k → provider (maxRetries - r + j) = PResult.raise ∨
                    provider (maxRetries - r + j) = PResult.resp "") →
      provider (maxRetries - r + k) = PResult.resp t →
      attemptLoop maxRetries provider r =
        (some (pyStrip t), k + 1,
          ∑ j in Finset.range k,
            if provider (maxRetries - r + j) = PResult.raise
            then 2 ^ (maxRetries - r + j) else 0) := by
  intro r
  induction r with
  | zero => intro k _ hk; omega
  | succ r ih =>
    intro k hr hk hfail hsucc
    cases k with
    | zero =>
      rw [show maxRetries - (r + 1) + 0 = maxRetries - (r + 1) from rfl] at hsucc
      simp [attemptLoop, hsucc, ht]
    | succ k =>
      have hfail' : ∀ j, j < k → provider (maxRetries - r + j) = PResult.raise ∨
          provider (maxRetries - r + j) = PResult.resp "" := by
        intro j hj
        have h := hfail (j + 1) (by omega)
        rwa [show maxRetries - (r + 1) + (j + 1) = maxRetries - r + j by omega] at h
      have hsucc' : provider (maxRetries - r + k) = PResult.resp t := by
        rwa [show maxRetries - (r + 1) + (k + 1) = maxRetries - r + k by omega] at hsucc
      have hrest := ih k (by omega) (by omega) hfail' hsucc'
      have h0 := hfail 0 (by omega)
      rw [Nat.add_zero] at h0
      have hsum1 : (∑ j in Finset.range k,
            (if provider (maxRetries - (r + 1) + (j + 1)) = PResult.raise
             then 2 ^ (maxRetries - (r + 1) + (j + 1)) else 0)) =
          ∑ j in Finset.range k,
            (if provider (maxRetries - r + j) = PResult.raise
             then 2 ^ (maxRetries - r + j) else 0) :=
        Finset.sum_congr rfl fun j _ => by
          rw [show maxRetries - (r + 1) + (j + 1) = maxRetries - r + j by omega]
      have hsum : ∑ j in Finset.range (k + 1),
            (if provider (maxRetries - (r + 1) + j) = PResult.raise
             then 2 ^ (maxRetries - (r + 1) + j) else 0) =
          (∑ j in Finset.range k,
            (if provider (maxRetries - r + j) = PResult.raise
             then 2 ^ (maxRetries - r + j) else 0)) +
          (if provider (maxRetries - (r + 1)) = PResult.raise
           then 2 ^ (maxRetries - (r + 1)) else 0) := by
        rw [Finset.sum_range_succ', hsum1]
        simp only [Nat.add_zero]
      rcases h0 with h0 | h0
      · have hlt : maxRetries - (r + 1) < maxRetries - 1 := by omega
        simp [attemptLoop, h0, hrest, hlt, hsum]
      · simp [attemptLoop, h0, hrest, hsum]

/-- C3: with non-blank text and a known mode, if the provider fails on every
attempt — raising or returning an empty response — then `improve_text` makes
exactly `max_retries` attempts and returns the failure value `None`; the
model is a total function, so no provider exception reaches the caller. -/
theorem improve_text_exhausts_retries (rpm maxRetries : ℕ) (provider : ℕ → PResult)
    (now : ℚ) (times : List ℚ) (text mode : String)
    (htext : isBlankInput text = false)
    (hmode : (PROMPTS.lookup mode).isSome)
    (hfail : ∀ a, provider a = PResult.raise ∨ provider a = PResult.resp "") :
    (improve_text rpm maxRetries provider now times text mode).result = none ∧
    (improve_text rpm maxRetries provider now times text mode).attempts = maxRetries := by
  have h := attemptLoop_all_fail maxRetries provider hfail maxRetries
  rcases Option.isSome_iff_exists.mp hmode with ⟨v, hv⟩
  simp [improve_text, htext, hv, h.1, h.2]

/-- C3 witness: a provider that always raises exhausts three attempts. -/
theorem improve_text_exhausts_retries_witness :
    (improve_text 1 3 (fun _ => PResult.raise) 0 [] "hello" "formal").result = none ∧
    (improve_text 1 3 (fun _ => PResult.raise) 0 [] "hello" "formal").attempts = 3 :=
  improve_text_exhausts_retries 1 3 (fun _ => PResult.raise) 0 [] "hello" "formal"
    (by decide) (by decide) (fun _ => Or.inl rfl)

/-- C4: with non-blank text and a known mode, if the provider raises on the
first `N` attempts (`N < max_retries`) and then succeeds with non-empty text,
`improve_text` returns the stripped successful result and the total backoff
delay slept is `2 ^ 0 + 2 ^ 1 + ⋯ + 2 ^ (N - 1)` seconds. -/
theorem improve_text_transient_failures (rpm maxRetries N : ℕ) (provider : ℕ → PResult)
    (now : ℚ) (times : List ℚ) (text mode t : String)
    (htext : isBlankInput text = false)
    (hmode : (PROMPTS.lookup mode).isSome)
    (hN : N < maxRetries)
    (hfail : ∀ j, j < N → provider j = PResult.raise)
    (hsucc : provider N = PResult.resp t) (ht : t ≠ "") :
    (improve_text rpm maxRetries provider now times text mode).result = some (pyStrip t) ∧
    (improve_text rpm maxRetries provider now times text mode).retrySleep =
      ∑ j in Finset.range N, 2 ^ j := by
  have h := attemptLoop_mixed maxRetries provider t ht maxRetries N le_rfl hN
    (fun j hj => by rw [Nat.sub_self, Nat.zero_add]; exact Or.inl (hfail j hj))
    (by rwa [Nat.sub_self, Nat.zero_add])
  have hsum : ∑ j in Finset.range N,
        (if provider (maxRetries - maxRetries + j) = PResult.raise
         then 2 ^ (maxRetries - maxRetries + j) else 0) =
      ∑ j in Finset.range N, 2 ^ j := by
    refine Finset.sum_congr rfl ?_
    intro j hj
    rw [Nat.sub_self, Nat.zero_add, if_pos (hfail j (Finset.mem_range.mp hj))]
  rcases Option.isSome_iff_exists.mp hmode with ⟨v, hv⟩
  simp [improve_text, htext, hv, h, hsum]
  exact Finset.sum_congr rfl fun j hj => if_pos (hfail j (Finset.mem_range.mp hj))

/-- C4 witness: one raise then success sleeps exactly `2 ^ 0 = 1` second. -/
theorem improve_text_transient_failures_witness :
    (improve_text 1 3 (fun a => if a = 0 then PResult.raise else PResult.resp "ok")
      0 [] "hello" "formal").result = some "ok" ∧
    (improve_text 1 3 (fun a => if a = 0 then PResult.raise else PResult.resp "ok")
      0 [] "hello" "formal").retrySleep = 1 := by
  have h := improve_text_transient_failures 1 3 1
    (fun a => if a = 0 then PResult.raise else PResult.resp "ok") 0 [] "hello" "formal" "ok"
    (by decide) (by decide) (by omega) (by decide) rfl (by decide)
  exact ⟨h.1.trans (by decide), h.2.trans (by decide)⟩

/-- C5 counterexample: with `max_retries = 2`, an empty-response failure on
attempt 0 is retried after a total sleep of 0 seconds, whereas a raised
failure on attempt 0 is retried after `2 ^ 0 = 1` second — the two failure
kinds are not under the claimed identical delay formula. -/
theorem retry_delay_empty_vs_raise :
    (attemptLoop 2 (fun a => if a = 0 then PResult.resp "" else PResult.resp "ok") 2).2.2 = 0 ∧
    (attemptLoop 2 (fun a => if a = 0 then PResult.raise else PResult.resp "ok") 2).2.2 = 1 ∧
    (0 : ℕ) ≠ 2 ^ 0 := by
  refine ⟨rfl, rfl, by decide⟩

/-- C5 (amended): the exponential-backoff delay `2 ^ attempt` is applied only
after attempts that raised an error; an attempt that returns a structurally
valid but empty response is retried immediately, contributing no delay. -/
theorem attemptLoop_delay_only_on_raise (maxRetries N : ℕ) (provider : ℕ → PResult)
    (t : String)
    (hN : N < maxRetries)
    (hfail : ∀ j, j < N → provider j = PResult.raise ∨ provider j = PResult.resp "")
    (hsucc : provider N = PResult.resp t) (ht : t ≠ "") :
    (attemptLoop maxRetries provider maxRetries).2.2 =
      ∑ j in Finset.range N, if provider j = PResult.raise then 2 ^ j else 0 := by
  have h := attemptLoop_mixed maxRetries provider t ht maxRetries N le_rfl hN
    (fun j hj => by rw [Nat.sub_self, Nat.zero_add]; exact hfail j hj)
    (by rwa [Nat.sub_self, Nat.zero_add])
  have h2 : (attemptLoop maxRetries provider maxRetries).2.2 =
      ∑ j in Finset.range N,
        (if provider (maxRetries - maxRetries + j) = PResult.raise
         then 2 ^ (maxRetries - maxRetries + j) else 0) := by rw [h]
  rw [h2]
  refine Finset.sum_congr rfl ?_
  intro j _
  rw [Nat.sub_self, Nat.zero_add]

/-- The worked example's user document: only `rate_limit.requests_per_minute`
is set, to 30. -/
def exampleUser : List (String × Val) :=
  [("rate_limit", Val.dict [("requests_per_minute", Val.int 30)])]

/-- Nested two-level lookup, as in `config.get(sec, {}).get(key)`. -/
def configGet2 (cfg : List (String × Val)) (sec key : String) : Option Val :=
  match dictGet cfg sec with
  | some (Val.dict d) => dictGet d key
  | _ => none

theorem dictGet_cons (k₁ : String) (v₁ : Val) (d : List (String × Val)) (k : String) :
    dictGet ((k₁, v₁) :: d) k = if k₁ = k then some v₁ else dictGet d k := by
  by_cases h : k₁ = k <;> simp [dictGet, List.find?_cons, h]

theorem dictGet_dictSet_self (d : List (String × Val)) (k : String) (v : Val) :
    dictGet (dictSet d k v) k = some v := by
  induction d with
  | nil => simp [dictSet, dictGet_cons]
  | cons p d ih =>
    obtain ⟨k₁, v₁⟩ := p
    by_cases h : k₁ = k
    · simp [dictSet, h, dictGet_cons]
    · simp [dictSet, h, dictGet_cons, ih]

theorem dictGet_dictSet_ne (d : List (String × Val)) (k k' : String) (v : Val)
    (h : k' ≠ k) :
    dictGet (dictSet d k' v) k = dictGet d k := by
  induction d with
  | nil => simp [dictSet, dictGet_cons, h]
  | cons p d ih =>
    obtain ⟨k₁, v₁⟩ := p
    by_cases h₁ : k₁ = k'
    · subst h₁
      simp [dictSet, dictGet_cons, h]
    · simp only [dictSet, if_neg h₁, dictGet_cons, ih]

theorem dictGet_eq_none_of_not_mem (d : List (String × Val)) (k : String)
    (h : k ∉ d.map Prod.fst) : dictGet d k = none := by
  induction d with
  | nil => rfl
  | cons p d ih =>
    obtain ⟨k₁, v₁⟩ := p
    simp only [List.map_cons, List.mem_cons, not_or] at h
    rw [dictGet_cons, if_neg (fun he => h.1 he.symm), ih h.2]

/-- Keys absent from the user document keep their default value. -/
theorem mergeWithDefaults_preserves (config : List (String × Val)) :
    ∀ (defaults : List (String × Val)) (k : String), dictGet config k = none →
      dictGet (mergeWithDefaults config defaults) k = dictGet defaults k := by
  induction config with
  | nil => intro defaults k _; simp [mergeWithDefaults]
  | cons p rest ih =>
    obtain ⟨k₁, v₁⟩ := p
    intro defaults k hk
    rw [dictGet_cons] at hk
    by_cases h : k₁ = k
    · rw [if_pos h] at hk
      exact absurd hk (by simp)
    · rw [if_neg h] at hk
      simp only [mergeWithDefaults]
      rw [ih _ k hk, dictGet_dictSet_ne _ _ _ _ h]

/-- Keys present in the user document take the user's value; when both sides
hold nested mappings, the nested mappings are merged by the same rule. -/
theorem mergeWithDefaults_overrides (config : List (String × Val)) :
    ∀ (defaults : List (String × Val)) (k : String) (v : Val),
      (config.map Prod.fst).Nodup → dictGet config k = some v →
      dictGet (mergeWithDefaults config defaults) k =
        some (mergeEntry (dictGet defaults k) v) := by
  induction config with
  | nil => intro _ _ _ _ h; exact absurd h (by simp [dictGet])
  | cons p rest ih =>
    obtain ⟨k₁, v₁⟩ := p
    intro defaults k v hnd hk
    rw [dictGet_cons] at hk
    simp only [List.map_cons, List.nodup_cons] at hnd
    obtain ⟨hk₁rest, hndrest⟩ := hnd
    by_cases h : k₁ = k
    · subst h
      rw [if_pos rfl] at hk
      injection hk with hv
      subst hv
      have hnone : dictGet rest k₁ = none :=
        dictGet_eq_none_of_not_mem rest k₁ hk₁rest
      simp only [mergeWithDefaults]
      rw [mergeWithDefaults_preserves rest _ k₁ hnone, dictGet_dictSet_self]
    · rw [if_neg h] at hk
      simp only [mergeWithDefaults]
      rw [ih _ k v hndrest hk, dictGet_dictSet_ne _ _ _ _ h]

/-- C7: merging a user document with the defaults keeps every default key not
present in the user document at its default value, gives every key present in
the user document the user's value (nested mappings being merged by the same
rule recursively), and on the worked example — a user document containing
only `rate_limit.requests_per_minute = 30` — yields the default
`gemini.model` together with `requests_per_minute = 30`. -/
theorem merge_with_defaults_spec :
    (∀ config defaults : List (String × Val), ∀ k : String,
        dictGet config k = none →
        dictGet (mergeWithDefaults config defaults) k = dictGet defaults k) ∧
    (∀ config defaults : List (String × Val), ∀ (k : String) (v : Val),
        (config.map Prod.fst).Nodup → dictGet config k = some v →
        dictGet (mergeWithDefaults config defaults) k =
          some (mergeEntry (dictGet defaults k) v)) ∧
    configGet2 (mergeWithDefaults exampleUser DEFAULT_CONFIG) "gemini" "model" =
      some (Val.str "gemini-2.0-flash-exp") ∧
    configGet2 (mergeWithDefaults exampleUser DEFAULT_CONFIG) "rate_limit"
      "requests_per_minute" = some (Val.int 30) := by
  refine ⟨mergeWithDefaults_preserves, mergeWithDefaults_overrides, ?_, ?_⟩ <;>
    simp [mergeWithDefaults, mergeEntry, exampleUser, DEFAULT_CONFIG, configGet2,
      dictGet, dictSet, List.find?]

/-- C7 witness: the preserve and override clauses at concrete inputs. -/
theorem merge_with_defaults_spec_witness :
    dictGet (mergeWithDefaults [("a", Val.int 1)] [("b", Val.int 2)]) "b" =
      dictGet [("b", Val.int 2)] "b" ∧
    dictGet (mergeWithDefaults [("a", Val.int 1)] [("b", Val.int 2)]) "a" =
      some (Val.int 1) := by
  constructor
  · exact merge_with_defaults_spec.1 [("a", Val.int 1)] [("b", Val.int 2)] "b" rfl
  · have h := merge_with_defaults_spec.2.1 [("a", Val.int 1)] [("b", Val.int 2)] "a"
      (Val.int 1) (by simp) rfl
    simpa using h

/-- C5 amended witness: empty response on attempt 0, raise on attempt 1,
success on attempt 2 — the total sleep is the raise's `2 ^ 1 = 2` seconds
only. -/
theorem attemptLoop_delay_only_on_raise_witness :
    (attemptLoop 3
      (fun a => if a = 0 then PResult.resp "" else
                if a = 1 then PResult.raise else PResult.resp "ok") 3).2.2 = 2 := by
  have h := attemptLoop_delay_only_on_raise 3 2
    (fun a => if a = 0 then PResult.resp "" else
              if a = 1 then PResult.raise else PResult.resp "ok") "ok"
    (by omega) (by decide) rfl (by decide)
  exact h.trans (by decide)
